import Mathlib

/-!
Verification development for the discrete-time unscented Kalman filter in
`qwfilter/kalman.py`.  The numerical code is shallowly embedded over the real
numbers: numpy arrays become functions out of `Fin`, `np.einsum` contractions
become explicit finite sums, and fallible library calls (Cholesky
factorization, matrix inversion) become `Option`-valued functions that return
`none` exactly when the underlying routine would raise.
-/

open Matrix Finset

namespace QWFilter

/-! ### Unscented transform: sizes, weights and sigma points
(`UnscentedTransformBase.__init__`, kalman.py lines 149-163) -/

/-- Number of sigma points, `2 * ni + (self.kappa != 0)` (line 156). -/
noncomputable def nsigma (ni : ℕ) (kappa : ℝ) : ℕ :=
  2 * ni + (if kappa ≠ 0 then 1 else 0)

/-- Transform weights (lines 159-162): every entry is `0.5 / (ni + kappa)`,
except that when `kappa != 0` the final (center) entry is overwritten with
`kappa / (ni + kappa)`.  Indexed by `ℕ`; only indices below `nsigma ni kappa`
are ever read. -/
noncomputable def weights (ni : ℕ) (kappa : ℝ) : ℕ → ℝ := fun k =>
  if kappa ≠ 0 ∧ k = nsigma ni kappa - 1 then kappa / (ni + kappa)
  else 0.5 / (ni + kappa)

/-- Sigma-point deviations (`sigma_points`, lines 177-179): rows `0..ni-1`
hold the rows of the square root `S`, rows `ni..2*ni-1` their negations, and
the optional center row is zero. -/
noncomputable def i_dev {ni : ℕ} (S : Matrix (Fin ni) (Fin ni) ℝ) :
    ℕ → Fin ni → ℝ := fun k j =>
  if h : k < ni then S ⟨k, h⟩ j
  else if h2 : k - ni < ni then -S ⟨k - ni, h2⟩ j
  else 0

/-- Sigma points (`sigma_points`, line 180): `i_sigma = i_dev + work.i`
(numpy row-wise broadcast). -/
noncomputable def sigma_points {ni : ℕ} (S : Matrix (Fin ni) (Fin ni) ℝ)
    (i : Fin ni → ℝ) : ℕ → Fin ni → ℝ := fun k j =>
  i_dev S k j + i j

/-- Result record of `UnscentedTransformBase.transform` (lines 200-213):
the fields stored on the work object. -/
structure UTResult (no : ℕ) where
  o : Fin no → ℝ
  o_dev : ℕ → Fin no → ℝ
  Po : Matrix (Fin no) (Fin no) ℝ

/-- Embedding of `UnscentedTransformBase.transform` (lines 200-213): propagate the sigma
points through `f`, then take the weighted mean, centered deviations, and
weighted outer product of the deviations. -/
noncomputable def transform {ni : ℕ} (no : ℕ) (kappa : ℝ)
    (S : Matrix (Fin ni) (Fin ni) ℝ) (i : Fin ni → ℝ)
    (f : (Fin ni → ℝ) → Fin no → ℝ) : UTResult no :=
  let o_sigma : ℕ → Fin no → ℝ := fun k => f (sigma_points S i k)
  let o : Fin no → ℝ := fun j =>
    ∑ k ∈ range (nsigma ni kappa), weights ni kappa k * o_sigma k j
  let o_dev : ℕ → Fin no → ℝ := fun k j => o_sigma k j - o j
  { o := o
    o_dev := o_dev
    Po := Matrix.of fun a b =>
      ∑ k ∈ range (nsigma ni kappa), o_dev k a * o_dev k b * weights ni kappa k }

/-- Embedding of `UnscentedTransformBase.crosscov` (lines 231-232): weighted outer product
of input deviations and output deviations. -/
noncomputable def crosscov {ni : ℕ} (no : ℕ) (kappa : ℝ)
    (S : Matrix (Fin ni) (Fin ni) ℝ) (res : UTResult no) :
    Matrix (Fin ni) (Fin no) ℝ :=
  Matrix.of fun a b =>
    ∑ k ∈ range (nsigma ni kappa), i_dev S k a * res.o_dev k b * weights ni kappa k

/-! ### Differentiable Cholesky factorization
(`DifferentiableCholesky`, kalman.py lines 252-309) -/

/-- Predicate: `S` is upper triangular. -/
def upperTri {n : ℕ} (S : Matrix (Fin n) (Fin n) ℝ) : Prop :=
  ∀ i j : Fin n, (j : ℕ) < (i : ℕ) → S i j = 0

/-- Model of `scipy.linalg.cholesky(Q, lower=False)` as called by
`DifferentiableCholesky.decompose` (kalman.py line 268): the recursive
upper-Cholesky elimination of LAPACK `dpotrf`, which reads only the upper
triangle of its input and raises (modelled as `none`) exactly when a pivot
fails to be positive. -/
noncomputable def cholUpper :
    (n : ℕ) → Matrix (Fin n) (Fin n) ℝ → Option (Matrix (Fin n) (Fin n) ℝ)
  | 0, _ => some (Matrix.of fun i _ => i.elim0)
  | n + 1, Q =>
    if 0 < Q 0 0 then
      (cholUpper n (Matrix.of fun i j =>
          Q i.succ j.succ - Q 0 i.succ * Q 0 j.succ / Q 0 0)).map fun S1 =>
        Matrix.of (Fin.cons
          (Fin.cons (Real.sqrt (Q 0 0)) fun j => Q 0 j.succ / Real.sqrt (Q 0 0))
          (fun i => Fin.cons 0 (S1 i)))
    else none

/-- Embedding of `DifferentiableCholesky.decompose` (kalman.py lines 265-269): perform the
Cholesky decomposition; the factor is stored on the work record and returned. -/
noncomputable def DifferentiableCholesky.decompose {n : ℕ}
    (Q : Matrix (Fin n) (Fin n) ℝ) : Option (Matrix (Fin n) (Fin n) ℝ) :=
  cholUpper n Q

/-! ### Filter work data, predictor and corrector
(`DTKalmanFilterWork`, `DTUnscentedPredictor`, `DTUnscentedCorrector`) -/

/-- Model interface consumed by the predictor and corrector: drift `f`,
process-noise covariance `Q`, observation `h`, observation-noise
covariance `R`. -/
structure KFModel (nx ny : ℕ) where
  f : ℕ → (Fin nx → ℝ) → Fin nx → ℝ
  Q : ℕ → (Fin nx → ℝ) → Matrix (Fin nx) (Fin nx) ℝ
  h : ℕ → (Fin nx → ℝ) → Fin ny → ℝ
  R : Matrix (Fin ny) (Fin ny) ℝ

/-- Data persisted on the work record by a non-identity `correct` call
(kalman.py lines 461-471): compressed innovation, innovation-covariance
inverse, and Cholesky factor.  The compressed size is dynamic, mirroring the
untyped numpy attributes. -/
structure CorrData where
  na : ℕ
  e : Fin na → ℝ
  PyI : Matrix (Fin na) (Fin na) ℝ
  PyC : Matrix (Fin na) (Fin na) ℝ

/-- The filter work record (`DTKalmanFilterWork` plus the attributes set by
the corrector): mean, covariance, time index, accumulated log-likelihood,
measurement-activity mask and persisted correction data. -/
structure KFWork (nx ny : ℕ) where
  x : Fin nx → ℝ
  Px : Matrix (Fin nx) (Fin nx) ℝ
  k : ℕ
  L : ℝ
  active : Fin ny → Bool
  data : CorrData

/-- A measurement vector with missing-data markers (numpy masked array):
`mask i = true` means entry `i` is missing. -/
structure MaskedVec (ny : ℕ) where
  val : Fin ny → ℝ
  mask : Fin ny → Bool

/-- Number of active (unmasked) measurement entries. -/
def activeCount {ny : ℕ} (active : Fin ny → Bool) : ℕ :=
  (Finset.univ.filter fun i => active i = true).card

/-- Order embedding enumerating the active indices in increasing order,
mirroring the index compression of `numpy.ma.compressed` and
`np.ix_(active, active)`. -/
def activeEmb {ny : ℕ} (active : Fin ny → Bool) :
    Fin (activeCount active) ↪o Fin ny :=
  (Finset.univ.filter fun i => active i = true).orderEmbOfFin rfl

open scoped Classical in
/-- Model of `scipy.linalg.inv`: raises `LinAlgError` (modelled as `none`)
on a singular input, otherwise returns the inverse. -/
noncomputable def linalgInv {m : Type*} [Fintype m] [DecidableEq m]
    (M : Matrix m m ℝ) : Option (Matrix m m ℝ) :=
  if IsUnit M.det then some M⁻¹ else none

/-- Embedding of `DTUnscentedPredictor.predict` (kalman.py lines 349-363): transform the
current distribution through the drift, add process noise, advance the time
index, and store and return the new distribution.  The variant square root is
the fallible argument `utSqrt` applied to `(nx + kappa) * Px` as in
`sigma_points` (line 176). -/
noncomputable def predict {nx ny : ℕ} (kappa : ℝ)
    (utSqrt : Matrix (Fin nx) (Fin nx) ℝ → Option (Matrix (Fin nx) (Fin nx) ℝ))
    (model : KFModel nx ny) (w : KFWork nx ny) :
    Option (KFWork nx ny × ((Fin nx → ℝ) × Matrix (Fin nx) (Fin nx) ℝ)) :=
  (utSqrt (((nx : ℝ) + kappa) • w.Px)).bind fun S =>
    let res := transform nx kappa S w.x (model.f w.k)
    let Px2 := res.Po + model.Q w.k w.x
    some ({ w with x := res.o, Px := Px2, k := w.k + 1 }, (res.o, Px2))

/-- Embedding of `DTUnscentedCorrector.correct` (kalman.py lines 429-472): set the active
mask; on a fully masked measurement return the unmodified distribution.
Otherwise restrict `y`, `R` and `h` to the active indices, run the unscented
transform through the restricted `h`, factorize the innovation covariance
`Py = Ph + R`, invert the factor (`PyI = PyCI PyCIᵀ`), form the gain
`K = Pxh PyI`, and update `x + K e` and `Px - K Py Kᵀ`, persisting the
correction data. -/
noncomputable def correct {nx ny : ℕ} (kappa : ℝ)
    (utSqrt : Matrix (Fin nx) (Fin nx) ℝ → Option (Matrix (Fin nx) (Fin nx) ℝ))
    (model : KFModel nx ny) (w : KFWork nx ny) (y : MaskedVec ny) :
    Option (KFWork nx ny × ((Fin nx → ℝ) × Matrix (Fin nx) (Fin nx) ℝ)) :=
  let active : Fin ny → Bool := fun i => ! y.mask i
  if ∀ i, y.mask i = true then
    some ({ w with active := active }, (w.x, w.Px))
  else
    let emb := activeEmb active
    let Ra := model.R.submatrix emb emb
    let hfun : (Fin nx → ℝ) → Fin (activeCount active) → ℝ :=
      fun x j => model.h w.k x (emb j)
    (utSqrt (((nx : ℝ) + kappa) • w.Px)).bind fun S =>
      let res := transform (activeCount active) kappa S w.x hfun
      let Pxh := crosscov (activeCount active) kappa S res
      let Py := res.Po + Ra
      (cholUpper (activeCount active) Py).bind fun PyC =>
        (linalgInv PyC).bind fun PyCI =>
          let PyI : Matrix (Fin (activeCount active))
              (Fin (activeCount active)) ℝ :=
            Matrix.of fun a b => ∑ c, PyCI a c * PyCI b c
          let e : Fin (activeCount active) → ℝ :=
            fun j => y.val (emb j) - res.o j
          let K : Matrix (Fin nx) (Fin (activeCount active)) ℝ :=
            Matrix.of fun a b => ∑ c, Pxh a c * PyI c b
          let x2 : Fin nx → ℝ := fun a => w.x a + ∑ j, K a j * e j
          let Px2 : Matrix (Fin nx) (Fin nx) ℝ :=
            Matrix.of fun a b => w.Px a b - ∑ c, ∑ d, K a c * K b d * Py c d
          some ({ x := x2, Px := Px2, k := w.k, L := w.L, active := active,
                  data := ⟨activeCount active, e, PyI, PyC⟩ }, (x2, Px2))

/-- Embedding of `DTUnscentedCorrector.update_likelihood` (kalman.py lines 505-512): no-op
when no measurement entry is active; otherwise subtract
`0.5 * e Py⁻¹ e` and the sum of the logarithms of the factor diagonal from
the accumulated log-likelihood. -/
noncomputable def update_likelihood {nx ny : ℕ} (w : KFWork nx ny) :
    KFWork nx ny :=
  if ∃ i, w.active i = true then
    { w with L := w.L -
        0.5 * (∑ a, ∑ b, w.data.e a * w.data.PyI a b * w.data.e b) -
        ∑ a, Real.log (w.data.PyC a a) }
  else w

/-- Embedding of `DTUnscentedCorrector.correction_diff` (kalman.py lines 474-503).  On an
identity step (no active entry) the guard on line 476 returns immediately.
On every other execution path the body evaluates `dPy_dq = dPh_dq + dR_dq`
(line 492), but no name `dPh_dq` is in scope — the transform derivative is
bound as `DPh_Dq` on line 484 and Python names are case sensitive — so the
call raises `NameError`; lines 501-502 additionally reference a bare `Py`
and `work.Py`, neither of which exists (`correct` never persists `Py`).
The unconditional failure of the non-identity path is modelled as `none`. -/
def correction_diff {nx ny : ℕ} (w : KFWork nx ny) : Option (KFWork nx ny) :=
  if ∃ i, w.active i = true then none else some w

/-- Work record used by the concrete witnesses below. -/
noncomputable def witnessWork : KFWork 1 1 :=
  KFWork.mk (fun _ => 0) 0 0 0 (fun _ => false)
    ⟨0, Fin.elim0, Matrix.of fun i => i.elim0, Matrix.of fun i => i.elim0⟩

/-- Model used by the concrete witnesses below. -/
noncomputable def witnessModel : KFModel 1 1 :=
  KFModel.mk (fun _ _ => 0) (fun _ _ => 0) (fun _ _ => 0) 0

/-! ### The filter driver (`DTKalmanFilterBase.filter`, kalman.py lines 80-91) -/

/-- Embedding of `DTKalmanFilterBase.filter` (kalman.py lines 80-91), generic in the
abstract `correct` and `predict` methods exactly as the base class is: for
each measurement in order, call `correct` and record its output as the next
trajectory row; after every step except the last, call `predict`.  Returns
the final work state together with the output trajectory. -/
def filterRun {W X Y : Type*} (correct : W → Y → W × X) (predict : W → W) :
    W → List Y → W × List X
  | w, [] => (w, [])
  | w, y :: ys =>
    let r := correct w y
    match ys with
    | [] => (r.1, [r.2])
    | y2 :: ys2 =>
      let rest := filterRun correct predict (predict r.1) (y2 :: ys2)
      (rest.1, r.2 :: rest.2)

/-- Call-trace events used to state the orchestration order of `filterRun`. -/
inductive FilterEvent (Y : Type*) where
  | corr (idx : ℕ) (y : Y)
  | pred

/-- Boolean recognizer for correction events. -/
def FilterEvent.isCorr {Y : Type*} : FilterEvent Y → Bool
  | .corr _ _ => true
  | .pred => false

/-- Boolean recognizer for prediction events. -/
def FilterEvent.isPred {Y : Type*} : FilterEvent Y → Bool
  | .corr _ _ => false
  | .pred => true

/-- Instrumented `correct`: appends a correction event carrying the running
correct-call counter, and returns the counter with the measurement as the
step output. -/
def traceCorrect {Y : Type*} : (ℕ × List (FilterEvent Y)) → Y →
    ((ℕ × List (FilterEvent Y)) × (ℕ × Y)) :=
  fun s y => ((s.1 + 1, s.2 ++ [FilterEvent.corr s.1 y]), (s.1, y))

/-- Instrumented `predict`: appends a prediction event. -/
def tracePredict {Y : Type*} :
    (ℕ × List (FilterEvent Y)) → ℕ × List (FilterEvent Y) :=
  fun s => (s.1, s.2 ++ [FilterEvent.pred])

/-- The strictly alternating call pattern: a correction for each step, a
prediction between consecutive corrections, and no prediction after the
final correction. -/
def altTrace {Y : Type*} : ℕ → List Y → List (FilterEvent Y)
  | _, [] => []
  | n, [y] => [FilterEvent.corr n y]
  | n, y :: y2 :: ys =>
    FilterEvent.corr n y :: FilterEvent.pred :: altTrace (n + 1) (y2 :: ys)

/-- Measurement enumeration: the `k`-th output of the instrumented loop is
the pair of the correction-call counter and the measurement it consumed. -/
def enumFromIdx {Y : Type*} : ℕ → List Y → List (ℕ × Y)
  | _, [] => []
  | n, y :: ys => (n, y) :: enumFromIdx (n + 1) ys

/-! ### Configuration validation (claim C9) -/

/-- Option-dictionary subset consumed by the transform and filter
constructors: the `sqrt` variant name and the center weight `kappa`, each
optional with the defaults of the source (`'cholesky'`, `0.0`). -/
structure KFOptions where
  sqrt : Option String
  kappa : Option ℝ

/-- The closed set of unscented-transform variants. -/
inductive UTVariant where
  | cholesky
  | svd

/-- Embedding of `choose_ut_transform_class` (kalman.py lines 324-332): dispatch on
`options.get('sqrt', 'cholesky')`, raising `ValueError` (modelled as `none`)
on an unrecognized variant name. -/
def choose_ut_transform_class (options : KFOptions) : Option UTVariant :=
  let sqrt : String := match options.sqrt with
    | none => "cholesky"
    | some s => s
  if sqrt = "cholesky" then some UTVariant.cholesky
  else if sqrt = "svd" then some UTVariant.svd
  else none

/-- A constructed unscented-transform configuration. -/
structure UTConfig where
  ni : ℕ
  kappa : ℝ

open scoped Classical in
/-- Embedding of `UnscentedTransformBase.__init__` (kalman.py lines 135-163): read
`kappa` (default `0.0`) and assert `ni + kappa != 0` before the transform
object exists; the failed assertion is modelled as `none`. -/
noncomputable def mkUnscentedTransform (ni : ℕ) (options : KFOptions) :
    Option UTConfig :=
  let kappa := options.kappa.getD 0
  if (ni : ℝ) + kappa ≠ 0 then some ⟨ni, kappa⟩ else none

/-- Embedding of `DTUnscentedPredictor.__init__` (kalman.py lines 337-347): choose the
transform class from the options, then construct the transform for the model
state dimension; any failure happens at construction time, before any
`predict` call can exist. -/
noncomputable def mkPredictor (nx : ℕ) (options : KFOptions) :
    Option (UTVariant × UTConfig) := do
  let V ← choose_ut_transform_class options
  let ut ← mkUnscentedTransform nx options
  some (V, ut)

/-- Embedding of `DTUnscentedCorrector.__init__` (kalman.py lines 417-427): the same
construction sequence as the predictor. -/
noncomputable def mkCorrector (nx : ℕ) (options : KFOptions) :
    Option (UTVariant × UTConfig) := do
  let V ← choose_ut_transform_class options
  let ut ← mkUnscentedTransform nx options
  some (V, ut)

/-- Variant name used by the C9 witness. -/
def qrName : String := "qr"

/-- Invalid option set used by the C9 witness: an unrecognized square-root
variant together with `kappa = -1` so that `nx + kappa = 0` at `nx = 1`. -/
def qrOptions : KFOptions := ⟨some qrName, some (-1)⟩

/-! ### Derivative propagation: Cholesky only (claim C10) -/

/-- Lower-triangle index pairs `(i, j)` with `j ≤ i`: the `tril_indices`
bookkeeping of `DifferentiableCholesky.initialize_gradient_data`
(kalman.py lines 256-263, 295-297). -/
def Tril (n : ℕ) : Type := { p : Fin n × Fin n // p.2 ≤ p.1 }

instance trilFintype {n : ℕ} : Fintype (Tril n) := by
  unfold Tril
  infer_instance

instance trilDecEq {n : ℕ} : DecidableEq (Tril n) := by
  unfold Tril
  infer_instance

instance trilLinearOrder {n : ℕ} : LinearOrder (Tril n) :=
  LinearOrder.lift' (fun p : Tril n => toLex p.val) fun _ _ h =>
    Subtype.ext (toLex.injective h)

/-- The four-index tensor `A` of `DifferentiableCholesky.diff` (kalman.py
lines 299-301): `A[i,j,i,k] = S[k,j]` and `A[i,j,j,k] += S[k,i]`. -/
def cholA {n : ℕ} (S : Matrix (Fin n) (Fin n) ℝ) (a b c d : Fin n) : ℝ :=
  (if c = a then S d b else 0) + (if c = b then S d a else 0)

/-- The restriction `A_tril = A[i, j][..., i, j]` (kalman.py line 302) of
the tensor to lower-triangle index pairs on both sides. -/
def A_tril {n : ℕ} (S : Matrix (Fin n) (Fin n) ℝ) :
    Matrix (Tril n) (Tril n) ℝ :=
  Matrix.of fun p q => cholA S p.val.1 p.val.2 q.val.1 q.val.2

/-- Embedding of `DifferentiableCholesky.diff` (kalman.py lines 271-309): build `A_tril`
from the stored factor `S`, invert it with `scipy.linalg.inv` (line 303,
fallible), apply the inverse to the lower-triangle entries of each
derivative direction (line 306), and scatter the solution into the
transposed (upper) triangle (line 308). -/
noncomputable def DifferentiableCholesky.diff {n nq : ℕ}
    (S : Matrix (Fin n) (Fin n) ℝ)
    (dQ_dq : Fin nq → Matrix (Fin n) (Fin n) ℝ) :
    Option (Fin nq → Matrix (Fin n) (Fin n) ℝ) :=
  (linalgInv (A_tril S)).map fun Ainv => fun q =>
    Matrix.of fun r c =>
      if h : r ≤ c then
        ∑ t : Tril n, Ainv ⟨(c, r), h⟩ t * dQ_dq q t.val.1 t.val.2
      else 0

/-- Method lookup for `sqrt_diff`: `CholeskyUnscentedTransform` defines it
(kalman.py lines 319-321), delegating to `DifferentiableCholesky.diff`,
while `SVDUnscentedTransform` (lines 242-249) defines no `sqrt_diff` method,
so the attribute lookup raises `AttributeError` (modelled as `none`). -/
noncomputable def sqrt_diff {n nq : ℕ} :
    UTVariant → Option (Matrix (Fin n) (Fin n) ℝ →
      (Fin nq → Matrix (Fin n) (Fin n) ℝ) →
      Option (Fin nq → Matrix (Fin n) (Fin n) ℝ))
  | UTVariant.cholesky => some fun S dQ => DifferentiableCholesky.diff S dQ
  | UTVariant.svd => none

/-- Embedding of `UnscentedTransformBase.sigma_points_diff` (kalman.py lines 186-198):
scale the covariance derivative by `ni + kappa`, call the variant's
`sqrt_diff`, and assemble the sigma-point derivatives: rows `0..ni-1` take
the factor derivative, rows `ni..2*ni-1` its negation, the center row zero,
and the mean derivative is broadcast onto every row. -/
noncomputable def sigma_points_diff {ni nq : ℕ} (variant : UTVariant)
    (kappa : ℝ) (S : Matrix (Fin ni) (Fin ni) ℝ)
    (di_dq : Fin nq → Fin ni → ℝ)
    (dPi_dq : Fin nq → Matrix (Fin ni) (Fin ni) ℝ) :
    Option (ℕ → Fin nq → Fin ni → ℝ) :=
  match sqrt_diff variant with
  | none => none
  | some sdf =>
    (sdf S (fun q => ((ni : ℝ) + kappa) • dPi_dq q)).map fun dS_dq =>
      fun k q j =>
        (if h : k < ni then dS_dq q ⟨k, h⟩ j
         else if h2 : k - ni < ni then -(dS_dq q ⟨k - ni, h2⟩ j)
         else 0) + di_dq q j

/-! ### Summation helpers over the sigma-point index range -/

theorem nsigma_eq_of_ne {ni : ℕ} {kappa : ℝ} (h : kappa ≠ 0) :
    nsigma ni kappa = 2 * ni + 1 := by
  simp [nsigma, h]

theorem nsigma_eq_of_eq {ni : ℕ} {kappa : ℝ} (h : kappa = 0) :
    nsigma ni kappa = 2 * ni := by
  simp [nsigma, h]

/-- Split a sum over the sigma-point indices into the two symmetric halves
plus the optional center point. -/
theorem sum_nsigma_split {ni : ℕ} {kappa : ℝ} (g : ℕ → ℝ) :
    ∑ k ∈ range (nsigma ni kappa), g k =
      (∑ j ∈ range ni, g j) + (∑ j ∈ range ni, g (ni + j)) +
        (if kappa ≠ 0 then g (2 * ni) else 0) := by
  by_cases h : kappa = 0
  · rw [nsigma_eq_of_eq h, two_mul, Finset.sum_range_add]
    simp [h]
  · rw [nsigma_eq_of_ne h, Finset.sum_range_add, two_mul, Finset.sum_range_add]
    simp [h]

theorem weights_lo {ni : ℕ} {kappa : ℝ} {k : ℕ} (hk : k < 2 * ni) :
    weights ni kappa k = 0.5 / (ni + kappa) := by
  unfold weights
  by_cases h : kappa = 0
  · simp [h]
  · rw [if_neg]
    rintro ⟨-, hidx⟩
    rw [nsigma_eq_of_ne h] at hidx
    omega

theorem weights_center {ni : ℕ} {kappa : ℝ} (h : kappa ≠ 0) :
    weights ni kappa (2 * ni) = kappa / (ni + kappa) := by
  unfold weights
  rw [if_pos]
  exact ⟨h, by rw [nsigma_eq_of_ne h]; omega⟩

theorem i_dev_lo {ni : ℕ} (S : Matrix (Fin ni) (Fin ni) ℝ) {k : ℕ}
    (hk : k < ni) (j : Fin ni) : i_dev S k j = S ⟨k, hk⟩ j := by
  simp [i_dev, hk]

theorem i_dev_hi {ni : ℕ} (S : Matrix (Fin ni) (Fin ni) ℝ) {k : ℕ}
    (hk : k < ni) (j : Fin ni) : i_dev S (ni + k) j = -S ⟨k, hk⟩ j := by
  have h1 : ¬ ni + k < ni := by omega
  have h2 : ni + k - ni = k := by omega
  simp only [i_dev, dif_neg h1, h2, dif_pos hk]

theorem i_dev_center {ni : ℕ} (S : Matrix (Fin ni) (Fin ni) ℝ) (j : Fin ni) :
    i_dev S (2 * ni) j = 0 := by
  have h1 : ¬ 2 * ni < ni := by omega
  have h2 : ¬ 2 * ni - ni < ni := by omega
  simp [i_dev, h1, h2]

/-! ### Core sigma-point identities -/

/-- The sigma-point weights sum to one whenever `ni + kappa ≠ 0`. -/
theorem sum_weights {ni : ℕ} {kappa : ℝ} (h : (ni : ℝ) + kappa ≠ 0) :
    ∑ k ∈ range (nsigma ni kappa), weights ni kappa k = 1 := by
  rw [sum_nsigma_split]
  have hlo : ∑ j ∈ range ni, weights ni kappa j = ni * (0.5 / (ni + kappa)) := by
    rw [Finset.sum_congr rfl fun j hj =>
      weights_lo (by have := Finset.mem_range.mp hj; omega)]
    simp [mul_comm]
  have hhi : ∑ j ∈ range ni, weights ni kappa (ni + j) = ni * (0.5 / (ni + kappa)) := by
    rw [Finset.sum_congr rfl fun j hj =>
      weights_lo (by have := Finset.mem_range.mp hj; omega)]
    simp [mul_comm]
  rw [hlo, hhi]
  by_cases hk : kappa = 0
  · have hni : (ni : ℝ) ≠ 0 := by simpa [hk] using h
    rw [if_neg (by simp [hk])]
    subst hk
    field_simp
    ring
  · rw [if_pos hk, weights_center hk]
    field_simp
    ring

/-- The weighted sum of the sigma-point deviations vanishes: the two
symmetric halves cancel and the center deviation is zero. -/
theorem sum_weights_mul_i_dev {ni : ℕ} {kappa : ℝ}
    (S : Matrix (Fin ni) (Fin ni) ℝ) (j : Fin ni) :
    ∑ k ∈ range (nsigma ni kappa), weights ni kappa k * i_dev S k j = 0 := by
  rw [sum_nsigma_split]
  have hlo : ∑ p ∈ range ni, weights ni kappa p * i_dev S p j =
      ∑ p : Fin ni, 0.5 / (ni + kappa) * S p j := by
    rw [← Fin.sum_univ_eq_sum_range]
    refine Finset.sum_congr rfl fun p _ => ?_
    rw [weights_lo (by omega), i_dev_lo S p.isLt, Fin.eta]
  have hhi : ∑ p ∈ range ni, weights ni kappa (ni + p) * i_dev S (ni + p) j =
      ∑ p : Fin ni, 0.5 / (ni + kappa) * (-S p j) := by
    rw [← Fin.sum_univ_eq_sum_range (fun p => weights ni kappa (ni + p) * i_dev S (ni + p) j)]
    refine Finset.sum_congr rfl fun p _ => ?_
    rw [weights_lo (by omega), i_dev_hi S p.isLt, Fin.eta]
  rw [hlo, hhi]
  by_cases hk : kappa = 0 <;> simp [hk, i_dev_center, ← Finset.sum_add_distrib]

/-- The weighted outer product of the sigma-point deviations recovers
`SᵀS / (ni + kappa)`. -/
theorem sum_i_dev_outer {ni : ℕ} {kappa : ℝ}
    (S : Matrix (Fin ni) (Fin ni) ℝ) (a b : Fin ni) :
    ∑ k ∈ range (nsigma ni kappa), i_dev S k a * i_dev S k b * weights ni kappa k =
      (Sᵀ * S) a b / ((ni : ℝ) + kappa) := by
  rw [sum_nsigma_split]
  have hlo : ∑ p ∈ range ni, i_dev S p a * i_dev S p b * weights ni kappa p =
      ∑ p : Fin ni, S p a * S p b * (0.5 / (ni + kappa)) := by
    rw [← Fin.sum_univ_eq_sum_range]
    refine Finset.sum_congr rfl fun p _ => ?_
    rw [weights_lo (by omega)]
    simp only [i_dev_lo S p.isLt, Fin.eta]
  have hhi : ∑ p ∈ range ni,
      i_dev S (ni + p) a * i_dev S (ni + p) b * weights ni kappa (ni + p) =
      ∑ p : Fin ni, S p a * S p b * (0.5 / (ni + kappa)) := by
    rw [← Fin.sum_univ_eq_sum_range
      (fun p => i_dev S (ni + p) a * i_dev S (ni + p) b * weights ni kappa (ni + p))]
    refine Finset.sum_congr rfl fun p _ => ?_
    rw [weights_lo (by omega)]
    simp only [i_dev_hi S p.isLt, Fin.eta]
    ring
  rw [hlo, hhi]
  have hmul : (Sᵀ * S) a b = ∑ p : Fin ni, S p a * S p b := by
    rw [Matrix.mul_apply]
    exact Finset.sum_congr rfl fun p _ => by rw [Matrix.transpose_apply]
  by_cases hk : kappa = 0 <;>
    · simp only [hk, i_dev_center, ne_eq, not_true_eq_false, if_false, if_true,
        not_false_eq_true, zero_mul, mul_zero, add_zero, hmul, Finset.sum_div,
        ← Finset.sum_add_distrib]
      refine Finset.sum_congr rfl fun p _ => ?_
      ring

/-- C4: for input dimension `ni ≥ 1` and any `kappa` with `ni + kappa ≠ 0`,
there are exactly `2 * ni` sigma points plus a center point present exactly
when `kappa ≠ 0`; the symmetric points carry weight `0.5 / (ni + kappa)` and
the center point `kappa / (ni + kappa)`; the weights sum to exactly one; and
the sigma points come in symmetric pairs equidistant from the mean:
`sigma_i + sigma_(ni+i) = 2 * mean`. -/
theorem claim_C4 {ni : ℕ} {kappa : ℝ} (_hni : 1 ≤ ni) (h : (ni : ℝ) + kappa ≠ 0) :
    nsigma ni kappa = 2 * ni + (if kappa ≠ 0 then 1 else 0) ∧
    (∀ k, k < 2 * ni → weights ni kappa k = 0.5 / (ni + kappa)) ∧
    (kappa ≠ 0 → weights ni kappa (2 * ni) = kappa / (ni + kappa)) ∧
    (∑ k ∈ range (nsigma ni kappa), weights ni kappa k = 1) ∧
    (∀ (S : Matrix (Fin ni) (Fin ni) ℝ) (i : Fin ni → ℝ) (p : ℕ), p < ni →
      ∀ j : Fin ni,
        sigma_points S i p j + sigma_points S i (ni + p) j = 2 * i j) := by
  refine ⟨rfl, fun k hk => weights_lo hk, fun hk => weights_center hk,
    sum_weights h, fun S i p hp j => ?_⟩
  unfold sigma_points
  rw [i_dev_lo S hp, i_dev_hi S hp]
  ring

/-- Witness for C4 at `ni = 1`, `kappa = 0`. -/
theorem claim_C4_witness :
    (1 ≤ 1 ∧ (1 : ℝ) + 0 ≠ 0) ∧
      ∑ k ∈ range (nsigma 1 (0 : ℝ)), weights 1 0 k = 1 :=
  ⟨⟨le_rfl, by norm_num⟩, (claim_C4 le_rfl (by norm_num)).2.2.2.1⟩

/-! ### The transform on affine maps (claim C3) -/

/-- On an affine map the transform mean is the exact affine image of the
input mean. -/
theorem transform_affine_o {ni no : ℕ} {kappa : ℝ} (h : (ni : ℝ) + kappa ≠ 0)
    (S : Matrix (Fin ni) (Fin ni) ℝ) (i : Fin ni → ℝ)
    (A : Matrix (Fin no) (Fin ni) ℝ) (b : Fin no → ℝ) :
    (transform no kappa S i (fun z => A *ᵥ z + b)).o = A *ᵥ i + b := by
  funext j
  show ∑ k ∈ range (nsigma ni kappa),
      weights ni kappa k * (A *ᵥ sigma_points S i k + b) j = (A *ᵥ i + b) j
  have hsig : ∀ k, (A *ᵥ sigma_points S i k + b) j =
      (∑ c, A j c * i_dev S k c) + ((A *ᵥ i) j + b j) := by
    intro k
    simp only [Pi.add_apply, Matrix.mulVec, Matrix.dotProduct, sigma_points,
      mul_add, Finset.sum_add_distrib]
    ring
  simp only [hsig, mul_add, Finset.sum_add_distrib, ← Finset.sum_mul]
  rw [sum_weights h, one_mul]
  have hzero : ∑ k ∈ range (nsigma ni kappa),
      weights ni kappa k * ∑ c, A j c * i_dev S k c = 0 := by
    have : ∀ k ∈ range (nsigma ni kappa),
        weights ni kappa k * ∑ c, A j c * i_dev S k c =
        ∑ c, A j c * (weights ni kappa k * i_dev S k c) := by
      intro k _
      rw [Finset.mul_sum]
      exact Finset.sum_congr rfl fun c _ => by ring
    rw [Finset.sum_congr rfl this, Finset.sum_comm]
    refine Finset.sum_eq_zero fun c _ => ?_
    rw [← Finset.mul_sum, sum_weights_mul_i_dev S c, mul_zero]
  rw [hzero, zero_add, Pi.add_apply, one_mul]

/-- On an affine map the transform deviations are the affine images of the
input deviations. -/
theorem transform_affine_o_dev {ni no : ℕ} {kappa : ℝ}
    (h : (ni : ℝ) + kappa ≠ 0)
    (S : Matrix (Fin ni) (Fin ni) ℝ) (i : Fin ni → ℝ)
    (A : Matrix (Fin no) (Fin ni) ℝ) (b : Fin no → ℝ) (k : ℕ) (j : Fin no) :
    (transform no kappa S i (fun z => A *ᵥ z + b)).o_dev k j =
      ∑ c, A j c * i_dev S k c := by
  show (A *ᵥ sigma_points S i k + b) j -
      (transform no kappa S i (fun z => A *ᵥ z + b)).o j = _
  rw [transform_affine_o h S i A b]
  simp only [Pi.add_apply, Matrix.mulVec, Matrix.dotProduct, sigma_points,
    mul_add, Finset.sum_add_distrib]
  ring

/-- C3: in exact real arithmetic, when the square root satisfies
`SᵀS = (ni + kappa) • Pin`, the unscented transform of the affine map
`z ↦ A z + b` returns exactly `A * mean + b` and `A * Pin * Aᵀ`.  (Both the
Cholesky and the SVD variants only enter `transform` through the matrix `S`
produced by their `sqrt` method, so the statement covers both.) -/
theorem claim_C3 {ni no : ℕ} {kappa : ℝ} (h : (ni : ℝ) + kappa ≠ 0)
    (S Pin : Matrix (Fin ni) (Fin ni) ℝ)
    (hS : Sᵀ * S = ((ni : ℝ) + kappa) • Pin)
    (A : Matrix (Fin no) (Fin ni) ℝ) (b : Fin no → ℝ) (i : Fin ni → ℝ) :
    (transform no kappa S i (fun z => A *ᵥ z + b)).o = A *ᵥ i + b ∧
    (transform no kappa S i (fun z => A *ᵥ z + b)).Po = A * Pin * Aᵀ := by
  refine ⟨transform_affine_o h S i A b, ?_⟩
  ext a d
  show ∑ k ∈ range (nsigma ni kappa),
      (transform no kappa S i (fun z => A *ᵥ z + b)).o_dev k a *
        (transform no kappa S i (fun z => A *ᵥ z + b)).o_dev k d *
        weights ni kappa k = (A * Pin * Aᵀ) a d
  simp only [transform_affine_o_dev h S i A b]
  have hexp : ∀ k ∈ range (nsigma ni kappa),
      (∑ c, A a c * i_dev S k c) * (∑ e, A d e * i_dev S k e) *
        weights ni kappa k =
      ∑ c, ∑ e, A a c * A d e *
        (i_dev S k c * i_dev S k e * weights ni kappa k) := by
    intro k _
    rw [Finset.sum_mul_sum, Finset.sum_mul]
    refine Finset.sum_congr rfl fun c _ => ?_
    rw [Finset.sum_mul]
    exact Finset.sum_congr rfl fun e _ => by ring
  rw [Finset.sum_congr rfl hexp, Finset.sum_comm]
  have hswap : ∀ c, ∑ k ∈ range (nsigma ni kappa),
      ∑ e, A a c * A d e * (i_dev S k c * i_dev S k e * weights ni kappa k) =
      ∑ e, A a c * A d e * Pin c e := by
    intro c
    rw [Finset.sum_comm]
    refine Finset.sum_congr rfl fun e _ => ?_
    rw [← Finset.mul_sum, sum_i_dev_outer S c e, hS]
    rw [Matrix.smul_apply, smul_eq_mul, mul_div_cancel_left₀ _ h]
  rw [Finset.sum_congr rfl fun c _ => hswap c]
  have htarget : (A * Pin * Aᵀ) a d = ∑ c, ∑ e, A a c * A d e * Pin c e := by
    simp only [Matrix.mul_apply, Matrix.transpose_apply, Finset.sum_mul]
    rw [Finset.sum_comm]
    exact Finset.sum_congr rfl fun c _ => Finset.sum_congr rfl fun e _ => by ring
  rw [htarget]

/-- Witness for C3 at `ni = no = 1`, `kappa = 0`, `S = Pin = 1`, `A = 1`,
`b = 0`, `i = 0`. -/
theorem claim_C3_witness :
    ((1 : ℝ) + 0 ≠ 0 ∧
      (1 : Matrix (Fin 1) (Fin 1) ℝ)ᵀ * 1 = ((1 : ℝ) + 0) • 1) ∧
    (transform 1 (0 : ℝ) (1 : Matrix (Fin 1) (Fin 1) ℝ) (fun _ => 0)
        (fun z => (1 : Matrix (Fin 1) (Fin 1) ℝ) *ᵥ z + 0)).o =
      (1 : Matrix (Fin 1) (Fin 1) ℝ) *ᵥ (fun _ => 0) + 0 :=
  ⟨⟨by norm_num, by simp⟩,
    (claim_C3 (by norm_num) 1 1 (by simp) 1 0 (fun _ => 0)).1⟩

/-- A successful `cholUpper` returns an upper-triangular factor with positive
diagonal, and if the input was symmetric the factor satisfies `SᵀS = Q`. -/
theorem cholUpper_some_spec {n : ℕ} :
    ∀ {Q S : Matrix (Fin n) (Fin n) ℝ}, cholUpper n Q = some S →
      upperTri S ∧ (∀ i, 0 < S i i) ∧ (Qᵀ = Q → Sᵀ * S = Q) := by
  induction n with
  | zero =>
    intro Q S h
    simp only [cholUpper, Option.some.injEq] at h
    subst h
    exact ⟨fun i => i.elim0, fun i => i.elim0, fun _ => by ext i; exact i.elim0⟩
  | succ n ih =>
    intro Q S h
    rw [cholUpper] at h
    by_cases ha : 0 < Q 0 0
    swap
    · rw [if_neg ha] at h; exact absurd h (by simp)
    rw [if_pos ha] at h
    obtain ⟨S1, hS1, rfl⟩ := Option.map_eq_some'.mp h
    obtain ⟨hS1tri, hS1diag, hS1mul⟩ := ih hS1
    have halpha : (0 : ℝ) < Real.sqrt (Q 0 0) := Real.sqrt_pos.mpr ha
    have halpha2 : Real.sqrt (Q 0 0) * Real.sqrt (Q 0 0) = Q 0 0 :=
      Real.mul_self_sqrt ha.le
    set M : Matrix (Fin (n + 1)) (Fin (n + 1)) ℝ := Matrix.of (Fin.cons
      (Fin.cons (Real.sqrt (Q 0 0)) fun j => Q 0 j.succ / Real.sqrt (Q 0 0))
      (fun i => Fin.cons 0 (S1 i))) with hM
    have hM00 : M 0 0 = Real.sqrt (Q 0 0) := by simp [hM]
    have hM0s : ∀ j : Fin n, M 0 j.succ = Q 0 j.succ / Real.sqrt (Q 0 0) := by
      intro j; simp [hM]
    have hMs0 : ∀ i : Fin n, M i.succ 0 = 0 := by intro i; simp [hM]
    have hMss : ∀ i j : Fin n, M i.succ j.succ = S1 i j := by
      intro i j; simp [hM]
    refine ⟨?_, ?_, ?_⟩
    · intro i j
      refine Fin.cases (fun hij => absurd hij (by simp)) (fun i2 => ?_) i
      refine Fin.cases (fun _ => hMs0 i2) (fun j2 hij => ?_) j
      rw [hMss]
      exact hS1tri i2 j2 (by simpa [Fin.val_succ] using hij)
    · intro i
      refine Fin.cases ?_ (fun i2 => ?_) i
      · rw [hM00]; exact halpha
      · rw [hMss]; exact hS1diag i2
    · intro hsym
      have hsymm : ∀ a b, Q b a = Q a b := fun a b => by
        conv_lhs => rw [← hsym]
        rw [Matrix.transpose_apply]
      have hschur : (Matrix.of fun i j : Fin n =>
          Q i.succ j.succ - Q 0 i.succ * Q 0 j.succ / Q 0 0)ᵀ =
          Matrix.of fun i j : Fin n =>
          Q i.succ j.succ - Q 0 i.succ * Q 0 j.succ / Q 0 0 := by
        ext i j
        simp only [Matrix.transpose_apply, Matrix.of_apply]
        rw [hsymm j.succ i.succ]
        ring
      have hprod := hS1mul hschur
      ext i j
      rw [Matrix.mul_apply, Fin.sum_univ_succ]
      simp only [Matrix.transpose_apply]
      refine Fin.cases ?_ (fun i2 => ?_) i
      · refine Fin.cases ?_ (fun j2 => ?_) j
        · simp only [hM00, hMs0, mul_zero, Finset.sum_const_zero, add_zero,
            halpha2]
        · rw [hM00, hM0s]
          rw [Finset.sum_eq_zero fun k _ => by rw [hMs0, zero_mul]]
          rw [mul_comm, div_mul_cancel₀ _ halpha.ne', add_zero]
      · refine Fin.cases ?_ (fun j2 => ?_) j
        · rw [hM0s, hM00]
          rw [Finset.sum_eq_zero fun k _ => by rw [hMs0 k, mul_zero]]
          rw [div_mul_cancel₀ _ halpha.ne', add_zero, hsymm]
        · rw [hM0s, hM0s]
          have hrest : ∑ k : Fin n, M k.succ i2.succ * M k.succ j2.succ =
              Q i2.succ j2.succ - Q 0 i2.succ * Q 0 j2.succ / Q 0 0 := by
            rw [Finset.sum_congr rfl fun k _ => by rw [hMss, hMss]]
            have := congrFun (congrFun hprod i2) j2
            rw [Matrix.mul_apply] at this
            simpa only [Matrix.transpose_apply, Matrix.of_apply] using this
          rw [hrest, div_mul_div_comm, halpha2]
          ring

/-- A positive-definite matrix has `0 < Q 0 0`. -/
theorem posDef_apply_zero_pos {n : ℕ} {Q : Matrix (Fin (n + 1)) (Fin (n + 1)) ℝ}
    (hQ : Q.PosDef) : 0 < Q 0 0 := by
  have h1 := hQ.2 (Pi.single 0 1) (by
    intro hz
    simpa using congrFun hz 0)
  simpa [Matrix.dotProduct, Matrix.mulVec, Pi.single_apply, ite_mul, mul_ite,
    Finset.sum_ite_eq'] using h1

/-- The Schur complement of the `(0,0)` pivot of a positive-definite matrix
is positive definite. -/
theorem schur_posDef {n : ℕ} {Q : Matrix (Fin (n + 1)) (Fin (n + 1)) ℝ}
    (hQ : Q.PosDef) :
    (Matrix.of fun i j : Fin n =>
      Q i.succ j.succ - Q 0 i.succ * Q 0 j.succ / Q 0 0).PosDef := by
  have ha : 0 < Q 0 0 := posDef_apply_zero_pos hQ
  have hsymm : ∀ a b, Q b a = Q a b := fun a b => by
    conv_lhs => rw [← hQ.1]
    simp [Matrix.conjTranspose_apply]
  constructor
  · ext i j
    simp only [Matrix.conjTranspose_apply, Matrix.of_apply, star_trivial]
    rw [hsymm j.succ i.succ]
    ring
  · intro v hv
    have hbne : (Q 0 0) ≠ 0 := ha.ne'
    set beta : ℝ := ∑ j : Fin n, Q 0 j.succ * v j with hbeta
    set x0 : ℝ := -beta / Q 0 0 with hx0
    set w : Fin (n + 1) → ℝ := Fin.cons x0 v with hw
    have hwne : w ≠ 0 := by
      intro h0
      apply hv
      funext j
      have := congrFun h0 j.succ
      simpa [hw, Fin.cons_succ] using this
    have hQw := hQ.2 w hwne
    set C : ℝ := ∑ i : Fin n, v i * ∑ j : Fin n, Q i.succ j.succ * v j with hC
    have hsplit : ∀ g : Fin (n + 1) → ℝ,
        ∑ i, w i * g i = x0 * g 0 + ∑ i2 : Fin n, v i2 * g i2.succ := by
      intro g
      rw [Fin.sum_univ_succ]
      simp only [hw, Fin.cons_zero, Fin.cons_succ]
    have hrow : ∀ i : Fin (n + 1), ∑ j, Q i j * w j =
        Q i 0 * x0 + ∑ j2 : Fin n, Q i j2.succ * v j2 := by
      intro i
      rw [Fin.sum_univ_succ]
      simp only [hw, Fin.cons_zero, Fin.cons_succ]
    have hlhs : dotProduct (star w) (Q *ᵥ w) =
        Q 0 0 * x0 * x0 + x0 * beta + beta * x0 + C := by
      have hd : dotProduct (star w) (Q *ᵥ w) =
          ∑ i, w i * ∑ j, Q i j * w j := by
        simp [Matrix.dotProduct, Matrix.mulVec, star_trivial]
      rw [hd, hsplit (fun i => ∑ j, Q i j * w j)]
      simp only [hrow]
      have hQs0 : ∀ i2 : Fin n, Q i2.succ 0 = Q 0 i2.succ := fun i2 =>
        hsymm 0 i2.succ
      simp only [hQs0, mul_add, Finset.sum_add_distrib]
      have hbx : ∑ i2 : Fin n, v i2 * (Q 0 i2.succ * x0) = beta * x0 := by
        rw [hbeta, Finset.sum_mul]
        exact Finset.sum_congr rfl fun i2 _ => by ring
      rw [hbx, ← hbeta, ← hC]
      ring
    have hrhs : dotProduct (star v) ((Matrix.of fun i j : Fin n =>
        Q i.succ j.succ - Q 0 i.succ * Q 0 j.succ / Q 0 0) *ᵥ v) =
        C - beta * beta / Q 0 0 := by
      have hd : dotProduct (star v) ((Matrix.of fun i j : Fin n =>
          Q i.succ j.succ - Q 0 i.succ * Q 0 j.succ / Q 0 0) *ᵥ v) =
          ∑ i2 : Fin n, v i2 *
            ∑ j2 : Fin n, (Q i2.succ j2.succ -
              Q 0 i2.succ * Q 0 j2.succ / Q 0 0) * v j2 := by
        simp [Matrix.dotProduct, Matrix.mulVec, star_trivial]
      rw [hd]
      have hin : ∀ i2 : Fin n,
          ∑ j2 : Fin n,
            (Q i2.succ j2.succ - Q 0 i2.succ * Q 0 j2.succ / Q 0 0) * v j2 =
          (∑ j2 : Fin n, Q i2.succ j2.succ * v j2) -
            Q 0 i2.succ * beta / Q 0 0 := by
        intro i2
        rw [Finset.sum_congr rfl fun j2 _ => sub_mul (Q i2.succ j2.succ) _ (v j2),
          Finset.sum_sub_distrib]
        congr 1
        have hexp : Q 0 i2.succ * beta / Q 0 0 =
            ∑ j2 : Fin n, Q 0 i2.succ * Q 0 j2.succ / Q 0 0 * v j2 := by
          rw [hbeta, Finset.mul_sum, Finset.sum_div]
          exact Finset.sum_congr rfl fun j2 _ => by ring
        rw [hexp]
      simp only [hin, mul_sub, Finset.sum_sub_distrib]
      rw [← hC]
      congr 1
      have hexp2 : beta * beta / Q 0 0 =
          ∑ i2 : Fin n, v i2 * (Q 0 i2.succ * beta / Q 0 0) := by
        conv_lhs => rw [hbeta]
        rw [Finset.sum_mul, Finset.sum_div]
        exact Finset.sum_congr rfl fun i2 _ => by ring
      rw [hexp2]
    rw [hrhs]
    rw [hlhs] at hQw
    have hxval : Q 0 0 * x0 * x0 + x0 * beta + beta * x0 + C =
        C - beta * beta / Q 0 0 := by
      rw [hx0]
      field_simp
      ring
    rw [hxval] at hQw
    exact hQw

/-- Existence: `cholUpper` succeeds on every positive-definite matrix. -/
theorem cholUpper_isSome_of_posDef {n : ℕ} :
    ∀ {Q : Matrix (Fin n) (Fin n) ℝ}, Q.PosDef →
      ∃ S, cholUpper n Q = some S := by
  induction n with
  | zero => intro Q _; exact ⟨_, rfl⟩
  | succ n ih =>
    intro Q hQ
    have ha : 0 < Q 0 0 := posDef_apply_zero_pos hQ
    obtain ⟨S1, hS1⟩ := ih (schur_posDef hQ)
    rw [cholUpper, if_pos ha, hS1]
    exact ⟨_, rfl⟩

/-- Determinant of a successful factor: positive, hence the factor is
invertible. -/
theorem cholUpper_some_det_pos {n : ℕ} {Q S : Matrix (Fin n) (Fin n) ℝ}
    (h : cholUpper n Q = some S) : 0 < S.det := by
  obtain ⟨htri, hdiag, -⟩ := cholUpper_some_spec h
  have hblock : S.BlockTriangular id := by
    intro i j hij
    exact htri i j hij
  rw [Matrix.det_of_upperTriangular hblock]
  exact Finset.prod_pos fun i _ => hdiag i

/-- A successful factorization of a symmetric matrix certifies positive
definiteness: `Q = SᵀS` with `S` invertible. -/
theorem posDef_of_cholUpper_some {n : ℕ} {Q S : Matrix (Fin n) (Fin n) ℝ}
    (hsym : Qᵀ = Q) (h : cholUpper n Q = some S) : Q.PosDef := by
  obtain ⟨htri, hdiag, hmul⟩ := cholUpper_some_spec h
  have hQ := hmul hsym
  have hdet : 0 < S.det := cholUpper_some_det_pos h
  have hSinj : Function.Injective S.mulVec :=
    Matrix.mulVec_injective_iff_isUnit.mpr
      ((Matrix.isUnit_iff_isUnit_det S).mpr hdet.ne'.isUnit)
  have hQsymm : ∀ a b, Q b a = Q a b := fun a b => by
    conv_lhs => rw [← hsym]
    rw [Matrix.transpose_apply]
  constructor
  · ext a b
    rw [Matrix.conjTranspose_apply, star_trivial, hQsymm]
  · intro x hx
    have hstar : star x = x := funext fun _ => star_trivial _
    have hu : S *ᵥ x ≠ 0 := by
      intro h0
      exact hx (hSinj (by rw [h0, Matrix.mulVec_zero]))
    have hform : dotProduct x (Q *ᵥ x) = dotProduct (S *ᵥ x) (S *ᵥ x) := by
      rw [← hQ, ← Matrix.mulVec_mulVec, Matrix.dotProduct_mulVec,
        Matrix.vecMul_transpose]
    rw [hstar, hform]
    have hstar2 : star (S *ᵥ x) = S *ᵥ x := funext fun _ => star_trivial _
    rw [← hstar2]
    exact Matrix.dotProduct_star_self_pos_iff.mpr hu

/-- C2: for every symmetric positive-definite `Q`,
`DifferentiableCholesky.decompose` returns an upper-triangular `S` with
`SᵀS = Q` (the returned matrix is the one stored as `work.S`); for symmetric
`Q` that is not positive definite it propagates the factorization failure
(returns `none`) rather than returning a value. -/
theorem claim_C2 {n : ℕ} (Q : Matrix (Fin n) (Fin n) ℝ) (hsym : Qᵀ = Q) :
    (Q.PosDef → ∃ S, DifferentiableCholesky.decompose Q = some S ∧
      upperTri S ∧ Sᵀ * S = Q) ∧
    (¬ Q.PosDef → DifferentiableCholesky.decompose Q = none) := by
  constructor
  · intro hpd
    obtain ⟨S, hS⟩ := cholUpper_isSome_of_posDef hpd
    obtain ⟨htri, -, hmul⟩ := cholUpper_some_spec hS
    exact ⟨S, hS, htri, hmul hsym⟩
  · intro hnpd
    rcases hcase : cholUpper n Q with - | S
    · exact hcase
    · exact absurd (posDef_of_cholUpper_some hsym hcase) hnpd

/-- Witness for C2 at `Q = 1` of size `1 × 1`. -/
theorem claim_C2_witness :
    ((1 : Matrix (Fin 1) (Fin 1) ℝ)ᵀ = 1) ∧
      ∃ S, DifferentiableCholesky.decompose (1 : Matrix (Fin 1) (Fin 1) ℝ) =
        some S ∧ upperTri S ∧ Sᵀ * S = 1 :=
  ⟨Matrix.transpose_one, (claim_C2 1 Matrix.transpose_one).1 Matrix.PosDef.one⟩

/-- C5: a fully masked measurement makes `correct` an identity step: it
returns the unmodified `(x, Px)`, stores unchanged `x`, `Px` and `L` on the
work record, and the subsequent `update_likelihood` leaves the whole record
(in particular the accumulated log-likelihood) unchanged. -/
theorem claim_C5 {nx ny : ℕ} (kappa : ℝ)
    (utSqrt : Matrix (Fin nx) (Fin nx) ℝ → Option (Matrix (Fin nx) (Fin nx) ℝ))
    (model : KFModel nx ny) (w : KFWork nx ny) (y : MaskedVec ny)
    (hmask : ∀ i, y.mask i = true) :
    ∃ w2, correct kappa utSqrt model w y = some (w2, (w.x, w.Px)) ∧
      w2.x = w.x ∧ w2.Px = w.Px ∧ w2.L = w.L ∧
      update_likelihood w2 = w2 := by
  refine ⟨{ w with active := fun i => ! y.mask i }, ?_, rfl, rfl, rfl, ?_⟩
  · unfold correct
    rw [if_pos hmask]
  · unfold update_likelihood
    rw [if_neg (by simp [hmask])]

/-- Witness for C5 on a concrete fully masked scalar measurement. -/
theorem claim_C5_witness :
    (∀ i : Fin 1, (MaskedVec.mk (fun _ => (3 : ℝ)) (fun _ => true)).mask i = true) ∧
    ∃ w2, correct 0 (fun _ => none) witnessModel witnessWork
        (MaskedVec.mk (fun _ => (3 : ℝ)) (fun _ => true)) =
      some (w2, (witnessWork.x, witnessWork.Px)) ∧
      w2.x = witnessWork.x ∧ w2.Px = witnessWork.Px ∧ w2.L = witnessWork.L ∧
      update_likelihood w2 = w2 :=
  ⟨fun _ => rfl, claim_C5 0 (fun _ => none) witnessModel witnessWork
    (MaskedVec.mk (fun _ => (3 : ℝ)) (fun _ => true)) (fun _ => rfl)⟩

/-- C7: `correction_diff` is a no-op on an identity step, but on every work
record with at least one active measurement entry it fails (the code raises
`NameError` on the undefined `dPh_dq`, and would additionally fail on the
never-persisted `Py`), instead of propagating the derivatives as specified. -/
theorem claim_C7 {nx ny : ℕ} (w : KFWork nx ny) :
    ((∃ i, w.active i = true) → correction_diff w = none) ∧
    ((∀ i, w.active i = false) → correction_diff w = some w) := by
  constructor
  · intro hact
    unfold correction_diff
    rw [if_pos hact]
  · intro hinact
    unfold correction_diff
    rw [if_neg (by simp [hinact])]

/-- Witness for C7: a concrete record with one active entry is rejected. -/
theorem claim_C7_witness :
    correction_diff { witnessWork with active := fun _ : Fin 1 => true } = none :=
  (claim_C7 _).1 ⟨0, rfl⟩

/-- C6: after a non-identity correction, `update_likelihood` subtracts both
`0.5 * eᵀ Py⁻¹ e` and the sum of the logarithms of the diagonal of the
persisted triangular factor from the accumulated log-likelihood, and that
sum equals half the log-determinant of the innovation covariance
`Py = PyCᵀ PyC`; on an identity step it is a no-op. -/
theorem claim_C6 {nx ny : ℕ} (w : KFWork nx ny)
    (Py : Matrix (Fin w.data.na) (Fin w.data.na) ℝ)
    (hsym : Pyᵀ = Py)
    (hfac : cholUpper w.data.na Py = some w.data.PyC) :
    ((∃ i, w.active i = true) →
      (update_likelihood w).L = w.L -
        0.5 * (∑ a, ∑ b, w.data.e a * w.data.PyI a b * w.data.e b) -
        ∑ a, Real.log (w.data.PyC a a) ∧
      ∑ a, Real.log (w.data.PyC a a) = 0.5 * Real.log Py.det) ∧
    ((∀ i, w.active i = false) → update_likelihood w = w) := by
  obtain ⟨htri, hdiag, hmul⟩ := cholUpper_some_spec hfac
  constructor
  · intro hact
    constructor
    · unfold update_likelihood
      rw [if_pos hact]
    · have hPyCmul : w.data.PyCᵀ * w.data.PyC = Py := hmul hsym
      have hdet : w.data.PyC.det = ∏ a, w.data.PyC a a :=
        Matrix.det_of_upperTriangular fun i j hij => htri i j hij
      have hprodpos : 0 < ∏ a, w.data.PyC a a :=
        Finset.prod_pos fun i _ => hdiag i
      have hPydet : Py.det =
          (∏ a, w.data.PyC a a) * ∏ a, w.data.PyC a a := by
        rw [← hPyCmul, Matrix.det_mul, Matrix.det_transpose, hdet]
      rw [hPydet, Real.log_mul hprodpos.ne' hprodpos.ne',
        Real.log_prod _ _ fun i _ => (hdiag i).ne']
      ring
  · intro hinact
    unfold update_likelihood
    rw [if_neg (by simp [hinact])]

/-- Evaluation of the factorization model on the concrete `1 × 1` identity
matrix, used by the witnesses. -/
theorem cholUpper_one_dim : cholUpper 1 (1 : Matrix (Fin 1) (Fin 1) ℝ) = some 1 := by
  have h00 : (0 : ℝ) < (1 : Matrix (Fin 1) (Fin 1) ℝ) 0 0 := by simp
  rw [show (1 : ℕ) = 0 + 1 from rfl, cholUpper, if_pos h00, cholUpper]
  simp only [Option.map_some', Option.some.injEq]
  ext i j
  fin_cases i
  fin_cases j
  simp [Matrix.one_apply]

/-- Witness for C6 on a concrete record whose persisted factor is the
`1 × 1` identity factorization of `Py = 1`. -/
theorem claim_C6_witness :
    ∃ w : KFWork 1 1,
      ((1 : Matrix (Fin w.data.na) (Fin w.data.na) ℝ)ᵀ = 1) ∧
      cholUpper w.data.na (1 : Matrix (Fin w.data.na) (Fin w.data.na) ℝ) =
        some w.data.PyC ∧
      ((update_likelihood w).L = w.L -
          0.5 * (∑ a, ∑ b, w.data.e a * w.data.PyI a b * w.data.e b) -
          ∑ a, Real.log (w.data.PyC a a) ∧
        ∑ a, Real.log (w.data.PyC a a) =
          0.5 * Real.log (1 : Matrix (Fin w.data.na) (Fin w.data.na) ℝ).det) := by
  refine ⟨KFWork.mk (fun _ => 0) 0 0 0 (fun _ => true) ⟨1, fun _ => 0, 1, 1⟩,
    Matrix.transpose_one, cholUpper_one_dim, ?_⟩
  exact (claim_C6 (KFWork.mk (fun _ => 0) 0 0 0 (fun _ => true)
    ⟨1, fun _ => 0, 1, 1⟩) 1 Matrix.transpose_one cholUpper_one_dim).1 ⟨0, rfl⟩

/-- Running `filterRun` on the instrumented methods produces exactly the
alternating trace and enumerates the measurements as outputs. -/
theorem filterRun_trace {Y : Type*} :
    ∀ (ys : List Y) (n : ℕ) (tr : List (FilterEvent Y)),
      filterRun traceCorrect tracePredict (n, tr) ys =
        ((n + ys.length, tr ++ altTrace n ys), enumFromIdx n ys) := by
  intro ys
  induction ys with
  | nil => intro n tr; simp [filterRun, altTrace, enumFromIdx]
  | cons y ys ih =>
    intro n tr
    match ys with
    | [] => simp [filterRun, altTrace, traceCorrect, enumFromIdx]
    | y2 :: ys2 =>
      rw [filterRun]
      simp only [traceCorrect, tracePredict]
      rw [ih]
      simp only [altTrace, enumFromIdx, Prod.mk.injEq, List.length_cons]
      refine ⟨⟨by omega, by simp⟩, trivial⟩

/-- Correction-event count of the alternating trace. -/
theorem altTrace_countP_corr {Y : Type*} :
    ∀ (ys : List Y) (n : ℕ),
      (altTrace n ys).countP FilterEvent.isCorr = ys.length := by
  intro ys
  induction ys with
  | nil => intro n; simp [altTrace]
  | cons y ys ih =>
    intro n
    match ys with
    | [] => simp [altTrace, List.countP_cons, FilterEvent.isCorr]
    | y2 :: ys2 =>
      rw [altTrace]
      rw [List.countP_cons, List.countP_cons, ih (n + 1)]
      simp [FilterEvent.isCorr, FilterEvent.isPred]

/-- Prediction-event count of the alternating trace. -/
theorem altTrace_countP_pred {Y : Type*} :
    ∀ (ys : List Y) (n : ℕ),
      (altTrace n ys).countP FilterEvent.isPred = ys.length - 1 := by
  intro ys
  induction ys with
  | nil => intro n; simp [altTrace]
  | cons y ys ih =>
    intro n
    match ys with
    | [] => simp [altTrace, List.countP_cons, FilterEvent.isPred]
    | y2 :: ys2 =>
      rw [altTrace]
      rw [List.countP_cons, List.countP_cons, ih (n + 1)]
      simp [FilterEvent.isCorr, FilterEvent.isPred]

/-- Trajectory length of the generic filter loop. -/
theorem filterRun_length {W X Y : Type*}
    (correct : W → Y → W × X) (predict : W → W) :
    ∀ (ys : List Y) (w : W),
      (filterRun correct predict w ys).2.length = ys.length := by
  intro ys
  induction ys with
  | nil => intro w; simp [filterRun]
  | cons y ys ih =>
    intro w
    match ys with
    | [] => simp [filterRun]
    | y2 :: ys2 =>
      rw [filterRun]
      simp only [List.length_cons]
      rw [ih]
      simp

/-- C8: for every measurement list the filter loop returns a trajectory of
the same length; instantiated on the instrumented methods it performs
exactly `N` correction calls and `N - 1` prediction calls in the strictly
alternating order `correct, predict, correct, …, correct` (no prediction
after the last correction), and its `k`-th output row is the value returned
by the `k`-th correction call. -/
theorem claim_C8 :
    (∀ (W X Y : Type) (correct : W → Y → W × X) (predict : W → W)
      (ys : List Y) (w : W),
      (filterRun correct predict w ys).2.length = ys.length) ∧
    (∀ (Y : Type) (ys : List Y),
      filterRun traceCorrect tracePredict (0, ([] : List (FilterEvent Y))) ys =
        ((ys.length, altTrace 0 ys), enumFromIdx 0 ys)) ∧
    (∀ (Y : Type) (ys : List Y) (n : ℕ),
      (altTrace n ys).countP FilterEvent.isCorr = ys.length ∧
      (altTrace n ys).countP FilterEvent.isPred = ys.length - 1) := by
  refine ⟨fun W X Y c p ys w => filterRun_length c p ys w,
    fun Y ys => ?_, fun Y ys n =>
      ⟨altTrace_countP_corr ys n, altTrace_countP_pred ys n⟩⟩
  rw [filterRun_trace ys 0 []]
  simp

/-- C9: invalid configuration fails at construction: `nx + kappa = 0` makes
the transform constructor (and hence the predictor and corrector
constructors) fail, and an unrecognized `sqrt` option value makes the class
choice (and hence both constructors) fail, so no filter object — and no
`predict` or `correct` call — ever exists under such a configuration. -/
theorem claim_C9 (nx : ℕ) (options : KFOptions) :
    ((nx : ℝ) + options.kappa.getD 0 = 0 →
      mkUnscentedTransform nx options = none ∧
      mkPredictor nx options = none ∧ mkCorrector nx options = none) ∧
    (∀ s : String, options.sqrt = some s → s ≠ "cholesky" → s ≠ "svd" →
      choose_ut_transform_class options = none ∧
      mkPredictor nx options = none ∧ mkCorrector nx options = none) := by
  constructor
  · intro h0
    have hUT : mkUnscentedTransform nx options = none := by
      unfold mkUnscentedTransform
      rw [if_neg (by simpa using h0)]
    refine ⟨hUT, ?_, ?_⟩
    · unfold mkPredictor
      cases hc : choose_ut_transform_class options <;> simp [hc, hUT]
    · unfold mkCorrector
      cases hc : choose_ut_transform_class options <;> simp [hc, hUT]
  · intro s hs h1 h2
    have hchoose : choose_ut_transform_class options = none := by
      unfold choose_ut_transform_class
      rw [hs]
      simp [Option.getD, h1, h2]
    refine ⟨hchoose, ?_, ?_⟩
    · unfold mkPredictor
      simp [hchoose]
    · unfold mkCorrector
      simp [hchoose]

/-- Witness for C9 at `nx = 1` with the invalid options `qrOptions`. -/
theorem claim_C9_witness :
    (((1 : ℕ) : ℝ) + qrOptions.kappa.getD 0 = 0) ∧
    mkUnscentedTransform 1 qrOptions = none ∧
    choose_ut_transform_class qrOptions = none := by
  have h0 : ((1 : ℕ) : ℝ) + qrOptions.kappa.getD 0 = 0 := by
    norm_num [qrOptions, Option.getD]
  exact ⟨h0, ((claim_C9 1 _).1 h0).1,
    ((claim_C9 1 _).2 qrName rfl (by decide) (by decide)).1⟩

/-! ### Positive semi-definiteness of the predict/correct covariances
(claim C1) -/

/-- Expansion of a quadratic/bilinear form as a double sum. -/
theorem dot_expand {m1 m2 : Type*} [Fintype m1] [Fintype m2]
    (M : Matrix m1 m2 ℝ) (x : m1 → ℝ) (y : m2 → ℝ) :
    x ⬝ᵥ (M *ᵥ y) = ∑ a, ∑ b, x a * y b * M a b := by
  simp only [Matrix.dotProduct, Matrix.mulVec, Finset.mul_sum]
  exact Finset.sum_congr rfl fun a _ => Finset.sum_congr rfl fun b _ => by ring

/-- A weighted sum of products of two linear forms equals the bilinear form
of the weighted Gram matrix of the two families. -/
theorem sum_weighted_bilinear {m1 m2 : Type*} [Fintype m1] [Fintype m2]
    (N : ℕ) (w : ℕ → ℝ) (f : ℕ → m1 → ℝ) (g : ℕ → m2 → ℝ)
    (x : m1 → ℝ) (u : m2 → ℝ) :
    ∑ k ∈ range N, w k * ((∑ a, x a * f k a) * (∑ b, u b * g k b)) =
      ∑ a, ∑ b, x a * u b * ∑ k ∈ range N, f k a * g k b * w k := by
  have hterm : ∀ k, w k * ((∑ a, x a * f k a) * (∑ b, u b * g k b)) =
      ∑ a, ∑ b, x a * u b * (f k a * g k b * w k) := by
    intro k
    rw [Finset.sum_mul_sum, Finset.mul_sum]
    refine Finset.sum_congr rfl fun a _ => ?_
    rw [Finset.mul_sum]
    exact Finset.sum_congr rfl fun b _ => by ring
  rw [Finset.sum_congr rfl fun k _ => hterm k, Finset.sum_comm]
  refine Finset.sum_congr rfl fun a _ => ?_
  rw [Finset.sum_comm]
  exact Finset.sum_congr rfl fun b _ => (Finset.mul_sum _ _ _).symm

/-- The joint weighted-Gram quadratic form of two deviation families is
nonnegative when the weights are nonnegative. -/
theorem gram_quadratic_nonneg {m1 m2 : Type*} [Fintype m1] [Fintype m2]
    (N : ℕ) (w : ℕ → ℝ) (hw : ∀ k, 0 ≤ w k)
    (f : ℕ → m1 → ℝ) (g : ℕ → m2 → ℝ) (x : m1 → ℝ) (u : m2 → ℝ) :
    0 ≤ (∑ a, ∑ b, x a * x b * ∑ k ∈ range N, f k a * f k b * w k) +
        2 * (∑ a, ∑ b, x a * u b * ∑ k ∈ range N, f k a * g k b * w k) +
        (∑ a, ∑ b, u a * u b * ∑ k ∈ range N, g k a * g k b * w k) := by
  have hexp : (∑ a, ∑ b, x a * x b * ∑ k ∈ range N, f k a * f k b * w k) +
      2 * (∑ a, ∑ b, x a * u b * ∑ k ∈ range N, f k a * g k b * w k) +
      (∑ a, ∑ b, u a * u b * ∑ k ∈ range N, g k a * g k b * w k) =
      ∑ k ∈ range N,
        w k * ((∑ a, x a * f k a) + (∑ b, u b * g k b)) ^ 2 := by
    rw [← sum_weighted_bilinear N w f f x x, ← sum_weighted_bilinear N w f g x u,
      ← sum_weighted_bilinear N w g g u u]
    rw [Finset.mul_sum, ← Finset.sum_add_distrib, ← Finset.sum_add_distrib]
    exact Finset.sum_congr rfl fun k _ => by ring
  rw [hexp]
  exact Finset.sum_nonneg fun k _ => mul_nonneg (hw k) (sq_nonneg _)

/-- The weighted-Gram quadratic form of a single deviation family is
nonnegative when the weights are nonnegative. -/
theorem gram_quadratic_nonneg_single {m : Type*} [Fintype m]
    (N : ℕ) (w : ℕ → ℝ) (hw : ∀ k, 0 ≤ w k)
    (g : ℕ → m → ℝ) (u : m → ℝ) :
    0 ≤ ∑ a, ∑ b, u a * u b * ∑ k ∈ range N, g k a * g k b * w k := by
  have h := gram_quadratic_nonneg N w hw (fun _ (_ : Fin 0) => (0 : ℝ)) g
    Fin.elim0 u
  simpa using h

/-- All sigma-point weights are nonnegative when `kappa ≥ 0` and
`ni + kappa ≠ 0`. -/
theorem weights_nonneg {ni : ℕ} {kappa : ℝ} (hκ : 0 ≤ kappa)
    (hnκ : (ni : ℝ) + kappa ≠ 0) (k : ℕ) : 0 ≤ weights ni kappa k := by
  have hpos : 0 < (ni : ℝ) + kappa :=
    (add_nonneg (Nat.cast_nonneg ni) hκ).lt_of_ne (Ne.symm hnκ)
  unfold weights
  split
  · exact div_nonneg hκ hpos.le
  · exact div_nonneg (by norm_num) hpos.le

/-- Projection of the transform covariance. -/
theorem transform_Po_apply {ni no : ℕ} {kappa : ℝ}
    (S : Matrix (Fin ni) (Fin ni) ℝ) (i : Fin ni → ℝ)
    (f : (Fin ni → ℝ) → Fin no → ℝ) (a b : Fin no) :
    (transform no kappa S i f).Po a b =
      ∑ k ∈ range (nsigma ni kappa),
        (transform no kappa S i f).o_dev k a *
          (transform no kappa S i f).o_dev k b * weights ni kappa k := rfl

/-- Projection of the cross covariance. -/
theorem crosscov_apply {ni no : ℕ} {kappa : ℝ}
    (S : Matrix (Fin ni) (Fin ni) ℝ) (res : UTResult no)
    (a : Fin ni) (b : Fin no) :
    crosscov no kappa S res a b =
      ∑ k ∈ range (nsigma ni kappa),
        i_dev S k a * res.o_dev k b * weights ni kappa k := rfl

/-- The transform covariance is symmetric positive semi-definite whenever
the weights are (`kappa ≥ 0`, `ni + kappa ≠ 0`), for any square root and
any propagated function. -/
theorem transform_Po_posSemidef {ni no : ℕ} {kappa : ℝ} (hκ : 0 ≤ kappa)
    (hnκ : (ni : ℝ) + kappa ≠ 0) (S : Matrix (Fin ni) (Fin ni) ℝ)
    (i : Fin ni → ℝ) (f : (Fin ni → ℝ) → Fin no → ℝ) :
    (transform no kappa S i f).Po.PosSemidef := by
  constructor
  · ext a b
    rw [Matrix.conjTranspose_apply, star_trivial, transform_Po_apply,
      transform_Po_apply]
    exact Finset.sum_congr rfl fun k _ => by ring
  · intro x
    have hstar : star x = x := funext fun _ => star_trivial _
    rw [hstar, dot_expand]
    calc (0 : ℝ) ≤ ∑ a, ∑ b, x a * x b *
          ∑ k ∈ range (nsigma ni kappa),
            (transform no kappa S i f).o_dev k a *
              (transform no kappa S i f).o_dev k b * weights ni kappa k :=
        gram_quadratic_nonneg_single (nsigma ni kappa) (weights ni kappa)
          (weights_nonneg hκ hnκ) (transform no kappa S i f).o_dev x
      _ = ∑ a, ∑ b, x a * x b * (transform no kappa S i f).Po a b :=
        Finset.sum_congr rfl fun a _ => Finset.sum_congr rfl
          fun b _ => by rw [transform_Po_apply]

/-- Core lemma for the corrector: with a square root satisfying
`SᵀS = (nx + kappa) • Px`, a positive semi-definite (restricted) measurement
noise, and a successful factorization and inversion of the innovation
covariance, the corrected covariance `Px - K Py Kᵀ` as computed by `correct`
is positive semi-definite. -/
theorem corrected_cov_posSemidef {nx na : ℕ} {kappa : ℝ} (hκ : 0 ≤ kappa)
    (hnκ : (nx : ℝ) + kappa ≠ 0)
    (S Px : Matrix (Fin nx) (Fin nx) ℝ) (hPx : Px.PosSemidef)
    (hS : Sᵀ * S = ((nx : ℝ) + kappa) • Px)
    (xmean : Fin nx → ℝ) (hfun : (Fin nx → ℝ) → Fin na → ℝ)
    (Ra : Matrix (Fin na) (Fin na) ℝ) (hRa : Ra.PosSemidef)
    (PyC PyCI : Matrix (Fin na) (Fin na) ℝ)
    (hPyC : cholUpper na ((transform na kappa S xmean hfun).Po + Ra) = some PyC)
    (hPyCI : linalgInv PyC = some PyCI) :
    (Matrix.of fun a b => Px a b -
      ∑ c, ∑ d,
        (Matrix.of fun a2 b2 => ∑ c2,
          crosscov na kappa S (transform na kappa S xmean hfun) a2 c2 *
            (Matrix.of fun a3 b3 => ∑ c3, PyCI a3 c3 * PyCI b3 c3) c2 b2) a c *
        (Matrix.of fun a2 b2 => ∑ c2,
          crosscov na kappa S (transform na kappa S xmean hfun) a2 c2 *
            (Matrix.of fun a3 b3 => ∑ c3, PyCI a3 c3 * PyCI b3 c3) c2 b2) b d *
        ((transform na kappa S xmean hfun).Po + Ra) c d).PosSemidef := by
  set res := transform na kappa S xmean hfun with hres
  set Pxh := crosscov na kappa S res with hPxhdef
  set Py : Matrix (Fin na) (Fin na) ℝ := res.Po + Ra with hPydef
  set PyI : Matrix (Fin na) (Fin na) ℝ :=
    Matrix.of fun a3 b3 => ∑ c3, PyCI a3 c3 * PyCI b3 c3 with hPyIset
  set K : Matrix (Fin nx) (Fin na) ℝ :=
    Matrix.of fun a2 b2 => ∑ c2, Pxh a2 c2 * PyI c2 b2 with hKset
  -- matrix identities for the `einsum` definitions
  have hPyIdef : PyI = PyCI * PyCIᵀ := by
    ext a b
    rw [hPyIset, Matrix.of_apply, Matrix.mul_apply]
    exact Finset.sum_congr rfl fun c _ => by rw [Matrix.transpose_apply]
  have hKdef : K = Pxh * PyI := by
    ext a b
    rw [hKset, Matrix.of_apply, Matrix.mul_apply]
  -- inversion facts
  have hinv : PyCI = PyC⁻¹ ∧ IsUnit PyC.det := by
    unfold linalgInv at hPyCI
    split at hPyCI
    · exact ⟨(Option.some.injEq _ _).mp hPyCI |>.symm, by assumption⟩
    · exact absurd hPyCI (by simp)
  -- symmetry of the innovation covariance
  have hPh_symm : res.Poᵀ = res.Po := by
    ext a b
    rw [Matrix.transpose_apply, transform_Po_apply, transform_Po_apply]
    exact Finset.sum_congr rfl fun k _ => by ring
  have hRaT : Raᵀ = Ra := by
    ext a b
    rw [Matrix.transpose_apply]
    have h2 := congrFun (congrFun hRa.1 a) b
    rwa [Matrix.conjTranspose_apply, star_trivial] at h2
  have hPyT : Pyᵀ = Py := by
    rw [hPydef, Matrix.transpose_add, hPh_symm, hRaT]
  -- factorization facts
  obtain ⟨-, -, hmul⟩ := cholUpper_some_spec hPyC
  have hfac : PyCᵀ * PyC = Py := hmul hPyT
  have hCI1 : PyC * PyCI = 1 := by
    rw [hinv.1]
    exact Matrix.mul_nonsing_inv PyC hinv.2
  have hCI2 : PyCI * PyC = 1 := by
    rw [hinv.1]
    exact Matrix.nonsing_inv_mul PyC hinv.2
  have hPyIT : PyIᵀ = PyI := by
    rw [hPyIdef, Matrix.transpose_mul, Matrix.transpose_transpose]
  have hPyIPy : PyI * Py = 1 := by
    have h1 : PyCIᵀ * PyCᵀ = 1 := by
      rw [← Matrix.transpose_mul, hCI1, Matrix.transpose_one]
    rw [hPyIdef, ← hfac]
    calc PyCI * PyCIᵀ * (PyCᵀ * PyC)
        = PyCI * (PyCIᵀ * PyCᵀ) * PyC := by simp only [mul_assoc]
      _ = PyCI * 1 * PyC := by rw [h1]
      _ = 1 := by rw [mul_one, hCI2]
  have hPyPyI : Py * PyI = 1 := Matrix.mul_eq_one_comm.mp hPyIPy
  have hKPyK : K * Py * Kᵀ = Pxh * PyI * Pxhᵀ := by
    rw [hKdef, Matrix.transpose_mul, hPyIT]
    calc Pxh * PyI * Py * (PyI * Pxhᵀ)
        = Pxh * ((PyI * Py) * (PyI * Pxhᵀ)) := by
          simp only [Matrix.mul_assoc]
      _ = Pxh * (PyI * Pxhᵀ) := by rw [hPyIPy, Matrix.one_mul]
      _ = Pxh * PyI * Pxhᵀ := (Matrix.mul_assoc Pxh PyI Pxhᵀ).symm
  -- the corrected covariance in matrix form
  have hPx2 : (Matrix.of fun a b => Px a b -
      ∑ c, ∑ d, K a c * K b d * Py c d) = Px - K * Py * Kᵀ := by
    ext a b
    rw [Matrix.of_apply, Matrix.sub_apply]
    congr 1
    have hexp : (K * Py * Kᵀ) a b = ∑ c, ∑ d, K a d * Py d c * K b c := by
      rw [Matrix.mul_apply]
      refine Finset.sum_congr rfl fun c _ => ?_
      rw [Matrix.mul_apply, Matrix.transpose_apply, Finset.sum_mul]
    rw [hexp, Finset.sum_comm]
    exact Finset.sum_congr rfl fun c _ => Finset.sum_congr rfl fun d _ => by
      ring
  show (Matrix.of fun a b => Px a b -
      ∑ c, ∑ d, K a c * K b d * Py c d).PosSemidef
  rw [hPx2, hKPyK]
  -- positivity of the quadratic form
  have hPxE : ∀ a b, ∑ k ∈ range (nsigma nx kappa),
      i_dev S k a * i_dev S k b * weights nx kappa k = Px a b := by
    intro a b
    rw [sum_i_dev_outer, hS, Matrix.smul_apply, smul_eq_mul,
      mul_div_cancel_left₀ _ hnκ]
  have hPxsymm : ∀ a b, Px b a = Px a b := by
    intro a b
    have h2 := congrFun (congrFun hPx.1 a) b
    rwa [Matrix.conjTranspose_apply, star_trivial] at h2
  constructor
  · ext a b
    rw [Matrix.conjTranspose_apply, star_trivial, Matrix.sub_apply,
      Matrix.sub_apply, hPxsymm]
    congr 1
    have hsymmKPK : (Pxh * PyI * Pxhᵀ)ᵀ = Pxh * PyI * Pxhᵀ := by
      rw [Matrix.transpose_mul, Matrix.transpose_mul, hPyIT,
        Matrix.transpose_transpose, Matrix.mul_assoc]
    conv_lhs => rw [← hsymmKPK]
    rw [Matrix.transpose_apply]
  · intro x
    have hstar : star x = x := funext fun _ => star_trivial _
    rw [hstar, Matrix.sub_mulVec, Matrix.dotProduct_sub]
    set u : Fin na → ℝ := -((PyI * Pxhᵀ) *ᵥ x) with hu
    have h0 := gram_quadratic_nonneg (nsigma nx kappa) (weights nx kappa)
      (weights_nonneg hκ hnκ) (i_dev S) res.o_dev x u
    have hA : (∑ a, ∑ b, x a * x b * ∑ k ∈ range (nsigma nx kappa),
        i_dev S k a * i_dev S k b * weights nx kappa k) =
        x ⬝ᵥ (Px *ᵥ x) := by
      rw [dot_expand]
      exact Finset.sum_congr rfl fun a _ => Finset.sum_congr rfl fun b _ => by
        rw [hPxE]
    have hB : (∑ a, ∑ b, x a * u b * ∑ k ∈ range (nsigma nx kappa),
        i_dev S k a * res.o_dev k b * weights nx kappa k) =
        x ⬝ᵥ (Pxh *ᵥ u) := by
      rw [dot_expand]
      exact Finset.sum_congr rfl fun a _ => Finset.sum_congr rfl fun b _ => by
        rw [hPxhdef, crosscov_apply]
    have hC : (∑ a, ∑ b, u a * u b * ∑ k ∈ range (nsigma nx kappa),
        res.o_dev k a * res.o_dev k b * weights nx kappa k) =
        u ⬝ᵥ (res.Po *ᵥ u) := by
      rw [dot_expand]
      exact Finset.sum_congr rfl fun a _ => Finset.sum_congr rfl fun b _ => by
        rw [transform_Po_apply]
    rw [hA, hB, hC] at h0
    have hRu : 0 ≤ u ⬝ᵥ (Ra *ᵥ u) := by
      have h2 := hRa.2 u
      rwa [show star u = u from funext fun _ => star_trivial _] at h2
    have hPyu : u ⬝ᵥ (Py *ᵥ u) = u ⬝ᵥ (res.Po *ᵥ u) + u ⬝ᵥ (Ra *ᵥ u) := by
      rw [hPydef, Matrix.add_mulVec, Matrix.dotProduct_add]
    have hBval : x ⬝ᵥ (Pxh *ᵥ u) = -(x ⬝ᵥ ((Pxh * PyI * Pxhᵀ) *ᵥ x)) := by
      rw [hu, Matrix.mulVec_neg, Matrix.dotProduct_neg, Matrix.mulVec_mulVec,
        ← Matrix.mul_assoc]
    have hCval : u ⬝ᵥ (Py *ᵥ u) = x ⬝ᵥ ((Pxh * PyI * Pxhᵀ) *ᵥ x) := by
      rw [hu, Matrix.mulVec_neg, Matrix.dotProduct_neg, Matrix.neg_dotProduct,
        neg_neg, Matrix.mulVec_mulVec,
        show Py * (PyI * Pxhᵀ) = Pxhᵀ by
          rw [← Matrix.mul_assoc, hPyPyI, Matrix.one_mul]]
      rw [show Pxh * PyI * Pxhᵀ = Pxh * (PyI * Pxhᵀ) from Matrix.mul_assoc _ _ _]
      conv_rhs => rw [← Matrix.mulVec_mulVec, Matrix.dotProduct_mulVec x Pxh]
      rw [show x ᵥ* Pxh = Pxhᵀ *ᵥ x by
          rw [← Matrix.transpose_transpose Pxh, Matrix.vecMul_transpose,
            Matrix.transpose_transpose],
        Matrix.dotProduct_comm]
    linarith [h0, hRu, hPyu, hBval, hCval]

/-- C1: symmetry and positive semi-definiteness of the state covariance is
an invariant of both filter steps.  For any work record whose `Px` is
symmetric positive semi-definite, with `kappa ≥ 0`, `nx + kappa ≠ 0`,
symmetric positive semi-definite model noise `Q` and `R`, and the
factorizations succeeding (the variant square root returns a genuine square
root of `(nx + kappa) Px`, and the calls return a value), the covariance
stored by `predict` (`Pf + Q`) and by `correct` (`Px - K Py Kᵀ`) is again
symmetric positive semi-definite. -/
theorem claim_C1 {nx ny : ℕ} {kappa : ℝ} (hκ : 0 ≤ kappa)
    (hnκ : (nx : ℝ) + kappa ≠ 0)
    (utSqrt : Matrix (Fin nx) (Fin nx) ℝ → Option (Matrix (Fin nx) (Fin nx) ℝ))
    (model : KFModel nx ny) (w : KFWork nx ny)
    (hsqrt : ∀ S, utSqrt (((nx : ℝ) + kappa) • w.Px) = some S →
      Sᵀ * S = ((nx : ℝ) + kappa) • w.Px)
    (hPx : w.Px.PosSemidef) (hR : model.R.PosSemidef) :
    (∀ w2 out, (model.Q w.k w.x).PosSemidef →
      predict kappa utSqrt model w = some (w2, out) → w2.Px.PosSemidef) ∧
    (∀ w2 out y, correct kappa utSqrt model w y = some (w2, out) →
      w2.Px.PosSemidef) := by
  constructor
  · intro w2 out hQ hcall
    unfold predict at hcall
    simp only [Option.bind_eq_some, Option.some.injEq, Prod.mk.injEq] at hcall
    obtain ⟨S, hS, ⟨hw2, -⟩⟩ := hcall
    subst hw2
    exact Matrix.PosSemidef.add (transform_Po_posSemidef hκ hnκ S w.x
      (model.f w.k)) hQ
  · intro w2 out y hcall
    unfold correct at hcall
    by_cases hm : ∀ i, y.mask i = true
    · rw [if_pos hm] at hcall
      simp only [Option.some.injEq, Prod.mk.injEq] at hcall
      obtain ⟨hw2, -⟩ := hcall
      subst hw2
      exact hPx
    · rw [if_neg hm] at hcall
      simp only [Option.bind_eq_some, Option.some.injEq, Prod.mk.injEq]
        at hcall
      obtain ⟨S, hS, PyC, hPyC, PyCI, hPyCI, ⟨hw2, -⟩⟩ := hcall
      subst hw2
      exact corrected_cov_posSemidef hκ hnκ S w.Px hPx (hsqrt S hS) w.x _ _
        (hR.submatrix _) PyC PyCI hPyC hPyCI

/-- Witness for C1 at `nx = ny = 1`, `kappa = 0`, `Px = 1`, zero model
functions, square root `S = 1`, and a fully masked measurement for the
correction step. -/
theorem claim_C1_witness :
    ∃ w2 out, predict 0 (fun _ => some 1) witnessModel
        { witnessWork with Px := 1 } = some (w2, out) ∧ w2.Px.PosSemidef ∧
      ∃ w3 out3, correct 0 (fun _ => some 1) witnessModel
          { witnessWork with Px := 1 }
          (MaskedVec.mk (fun _ => (3 : ℝ)) (fun _ => true)) =
        some (w3, out3) ∧ w3.Px.PosSemidef := by
  have hsqrt : ∀ S, (fun _ : Matrix (Fin 1) (Fin 1) ℝ =>
      some (1 : Matrix (Fin 1) (Fin 1) ℝ))
        ((((1 : ℕ) : ℝ) + 0) • ({ witnessWork with Px := 1 } : KFWork 1 1).Px) =
        some S →
      Sᵀ * S = (((1 : ℕ) : ℝ) + 0) •
        ({ witnessWork with Px := 1 } : KFWork 1 1).Px := by
    intro S hS
    obtain rfl : (1 : Matrix (Fin 1) (Fin 1) ℝ) = S := by
      simpa using hS
    simp
  have happ := claim_C1 le_rfl (by norm_num) (fun _ => some 1) witnessModel
    { witnessWork with Px := 1 } hsqrt Matrix.PosDef.one.posSemidef
    Matrix.PosSemidef.zero
  have hcorr : correct 0 (fun _ => some 1) witnessModel
      { witnessWork with Px := 1 }
      (MaskedVec.mk (fun _ => (3 : ℝ)) (fun _ => true)) =
      some ({ ({ witnessWork with Px := 1 } : KFWork 1 1) with
          active := fun i =>
            ! (MaskedVec.mk (fun _ => (3 : ℝ)) (fun _ => true)).mask i },
        (({ witnessWork with Px := 1 } : KFWork 1 1).x,
          ({ witnessWork with Px := 1 } : KFWork 1 1).Px)) := by
    unfold correct
    rw [if_pos fun i => rfl]
  exact ⟨_, _, rfl, happ.1 _ _ Matrix.PosSemidef.zero rfl,
    _, _, hcorr, happ.2 _ _ _ hcorr⟩

/-- Triangularity: `A_tril` is lower triangular in the lexicographic order of the
lower-triangle pairs when `S` is upper triangular. -/
theorem A_tril_lowerTriangular {n : ℕ} {S : Matrix (Fin n) (Fin n) ℝ}
    (htri : upperTri S) :
    (A_tril S).BlockTriangular OrderDual.toDual := by
  intro p q hlt
  rw [OrderDual.toDual_lt_toDual] at hlt
  have hlex : toLex p.val < toLex q.val := hlt
  rw [Prod.Lex.lt_iff] at hlex
  obtain ⟨⟨a, b⟩, hba⟩ := p
  obtain ⟨⟨c, d⟩, hdc⟩ := q
  unfold A_tril cholA
  simp only [Matrix.of_apply]
  rcases hlex with h1 | ⟨h1, h2⟩
  · have h1' : a < c := h1
    have hca : c ≠ a := ne_of_gt h1'
    have hcb : c ≠ b := by
      intro hcb
      subst hcb
      exact absurd (h1'.trans_le hba) (lt_irrefl _)
    rw [if_neg hca, if_neg hcb, add_zero]
  · have h1' : a = c := h1
    have h2' : b < d := h2
    subst h1'
    by_cases hab : a = b
    · subst hab
      simp only [eq_self_iff_true, if_true]
      rw [htri d a (Fin.lt_def.mp h2')]
      norm_num
    · simp only [eq_self_iff_true, if_true, if_neg hab, add_zero]
      exact htri d b (Fin.lt_def.mp h2')

/-- The diagonal of `A_tril` is positive when the factor has a positive
diagonal. -/
theorem A_tril_diag_pos {n : ℕ} {S : Matrix (Fin n) (Fin n) ℝ}
    (hdiag : ∀ i, 0 < S i i) (p : Tril n) : 0 < A_tril S p p := by
  obtain ⟨⟨a, b⟩, hba⟩ := p
  unfold A_tril cholA
  simp only [Matrix.of_apply]
  by_cases hab : a = b
  · subst hab
    simp only [eq_self_iff_true, if_true]
    linarith [hdiag a]
  · simp only [eq_self_iff_true, if_true, if_neg hab, add_zero]
    exact hdiag b

/-- The derivative operator built from a well-formed factor is
invertible. -/
theorem A_tril_det_pos {n : ℕ} {S : Matrix (Fin n) (Fin n) ℝ}
    (htri : upperTri S) (hdiag : ∀ i, 0 < S i i) : 0 < (A_tril S).det := by
  rw [Matrix.det_of_lowerTriangular _ (A_tril_lowerTriangular htri)]
  exact Finset.prod_pos fun p _ => A_tril_diag_pos hdiag p

/-- Solvability: `DifferentiableCholesky.diff` succeeds on every factor produced by a
successful `decompose`. -/
theorem diff_isSome_of_cholUpper {n nq : ℕ}
    {Q S : Matrix (Fin n) (Fin n) ℝ} (hchol : cholUpper n Q = some S)
    (dQ_dq : Fin nq → Matrix (Fin n) (Fin n) ℝ) :
    ∃ v, DifferentiableCholesky.diff S dQ_dq = some v := by
  obtain ⟨htri, hdiag, -⟩ := cholUpper_some_spec hchol
  unfold DifferentiableCholesky.diff linalgInv
  rw [if_pos (A_tril_det_pos htri hdiag).ne'.isUnit]
  exact ⟨_, rfl⟩

/-- C10: derivative propagation is only implemented for the Cholesky
variant.  `sigma_points_diff` on the SVD variant always fails (the class
defines no `sqrt_diff` method), while on the Cholesky variant with a factor
stored by a prior successful `sigma_points`/`decompose` call it succeeds. -/
theorem claim_C10 {ni nq : ℕ} :
    (∀ (kappa : ℝ) (S : Matrix (Fin ni) (Fin ni) ℝ)
        (di_dq : Fin nq → Fin ni → ℝ)
        (dPi_dq : Fin nq → Matrix (Fin ni) (Fin ni) ℝ),
      sigma_points_diff UTVariant.svd kappa S di_dq dPi_dq = none) ∧
    (∀ (kappa : ℝ) (Q S : Matrix (Fin ni) (Fin ni) ℝ)
        (di_dq : Fin nq → Fin ni → ℝ)
        (dPi_dq : Fin nq → Matrix (Fin ni) (Fin ni) ℝ),
      cholUpper ni Q = some S →
      ∃ v, sigma_points_diff UTVariant.cholesky kappa S di_dq dPi_dq =
        some v) := by
  constructor
  · intro kappa S di_dq dPi_dq
    rfl
  · intro kappa Q S di_dq dPi_dq hchol
    obtain ⟨dS, hdS⟩ := diff_isSome_of_cholUpper hchol
      (fun q => ((ni : ℝ) + kappa) • dPi_dq q)
    simp only [sigma_points_diff, sqrt_diff, hdS, Option.map_some']
    exact ⟨_, rfl⟩

/-- Witness for C10 on the concrete `1 × 1` identity factorization. -/
theorem claim_C10_witness :
    cholUpper 1 (1 : Matrix (Fin 1) (Fin 1) ℝ) = some 1 ∧
    ∃ v, sigma_points_diff UTVariant.cholesky (0 : ℝ)
        (1 : Matrix (Fin 1) (Fin 1) ℝ)
        (fun _ : Fin 1 => fun _ => (0 : ℝ)) (fun _ : Fin 1 => 0) = some v :=
  ⟨cholUpper_one_dim,
    claim_C10.2 0 1 1 (fun _ => fun _ => 0) (fun _ => 0) cholUpper_one_dim⟩

end QWFilter
